import Mathlib

/-!
Verification development for the lecture transcription / summarization scripts.

The embedding models, over `List Char` (Python `str`) and simple state records:
 * the tenacity-decorated retrying call wrapper of
   `RateLimitedGoogleGenerativeAI.generate_content`
   (`tenacity.retry(wait=wait_exponential(multiplier=1, min=4, max=10),
     stop=stop_after_attempt(10), retry=retry_if_exception_type(Exception))`,
   with `reraise` left at its default `False`);
 * the `RecursiveCharacterTextSplitter` configured in
   `LectureSummarizer.setup_text_splitter` (chunk_size=2000, chunk_overlap=150,
   length_function=len, separators=["\n\n", "\n", ".", "!", "?", " ", ""]),
   following the library's `_split_text`, `_split_text_with_regex` (with its
   default `keep_separator=True`, so merged pieces are joined with the empty
   separator), `_merge_splits` and `_join_docs` (which strips whitespace and
   drops empty results), and the `TextSplitter.__init__` overlap validation;
 * the map_reduce summarization chain orchestration (one LLM call per document
   in document order, partial results joined with "\n\n" into the combine
   prompt for a single final call);
 * `summarize` / `run` / `convert_to_html` / `delete_summary_text` and the
   `__main__` sequence, with the file system reduced to the three files the
   script touches;
 * the regex normalization `re.sub(r'(\*\*.*\*\*)\n', r'\1\n\n', text)` of
   `convert_to_html`;
 * the frame-collection loop of `RealtimeTranscriber.process_audio`.
-/

/-- Model of a Python exception value. `exc msg` is an ordinary exception
carrying `str(e)`; `retryError last` is `tenacity.RetryError` wrapping the
exception of the final failed attempt. -/
inductive PyErr where
  | exc (msg : String)
  | retryError (last : PyErr)
deriving DecidableEq

/-- Model of Python `str(e)` for the exceptions above. -/
def pyErrMsg : PyErr → String
  | .exc m => m
  | .retryError e => "RetryError: " ++ pyErrMsg e

/-- The tenacity retry loop around `generate_content`: attempts are numbered
from 1; a successful attempt returns immediately; after a failed attempt the
`stop_after_attempt 10` policy is consulted, and when no attempt remains the
loop raises `RetryError` wrapping the last failure (`reraise` is not set in the
source, so the original exception is not re-raised). `fuel` is the number of
retries still allowed after the current attempt. -/
def retryGo (call : Nat → Except PyErr α) : Nat → Nat → Except PyErr α
  | n, 0 =>
    match call n with
    | .ok a => .ok a
    | .error e => .error (.retryError e)
  | n, fuel + 1 =>
    match call n with
    | .ok a => .ok a
    | .error _ => retryGo call (n + 1) fuel

/-- `generate_content` with the tenacity decorator of the source: at most 10
attempts (attempt numbers 1..10). -/
def retryCall (call : Nat → Except PyErr α) : Except PyErr α :=
  retryGo call 1 9

/-- Number of the attempt on which the retry loop stops (also the total number
of invocations of the wrapped endpoint, since attempts are numbered from 1). -/
def retryGoCount (call : Nat → Except PyErr α) : Nat → Nat → Nat
  | n, 0 => n
  | n, fuel + 1 =>
    match call n with
    | .ok _ => n
    | .error _ => retryGoCount call (n + 1) fuel

/-- Total number of endpoint invocations made by the retrying wrapper. -/
def retryAttempts (call : Nat → Except PyErr α) : Nat :=
  retryGoCount call 1 9

/-- `tenacity.wait_exponential(multiplier, min, max)`: the wait before the
retry that follows attempt `n` is `max(max(0, min), min(multiplier * 2^n, max))`
(attempt numbers start at 1). -/
def waitExponential (multiplier mn mx n : Nat) : Nat :=
  Nat.max (Nat.max 0 mn) (Nat.min (multiplier * 2 ^ n) mx)

/-- The backoff wait configured in the source:
`wait_exponential(multiplier=1, min=4, max=10)`. -/
def backoffWait (n : Nat) : Nat :=
  waitExponential 1 4 10 n

/-! ### The text splitter

`RecursiveCharacterTextSplitter` as configured in `setup_text_splitter`,
embedded over `List Char`. All recursions are structural (fuel arguments bound
the recursion depth where Python recurses on computed values), so every
definition evaluates by `decide`/`rfl`. -/

/-- One step of Python `re.split(re.escape(sep), text)` for a nonempty literal
separator `s0 :: sr`: scan left to right, cutting at each (non-overlapping)
occurrence of the separator. `fuel` bounds the recursion depth; it is
initialized to the length of the scanned list, which suffices because each
step consumes at least one character. -/
def splitGoF (s0 : Char) (sr : List Char) : Nat → List Char → List (List Char)
  | _, [] => [[]]
  | 0, _ :: _ => [[]]
  | fuel + 1, c :: rest =>
    if (s0 :: sr).isPrefixOf (c :: rest) then
      [] :: splitGoF s0 sr fuel (rest.drop sr.length)
    else
      match splitGoF s0 sr fuel rest with
      | [] => [[c]]
      | p :: ps => (c :: p) :: ps

/-- Re-joining the pieces of a split with the separator put back between
them (the inverse reading of `re.split`). -/
def unsplit (sep : List Char) : List (List Char) → List Char
  | [] => []
  | [p] => p
  | p :: q :: r => p ++ sep ++ unsplit sep (q :: r)

/-- Python `re.search(re.escape(pat), text) is not None`: the literal `pat`
occurs somewhere in the text. -/
def containsSub (pat : List Char) : List Char → Bool
  | [] => pat.isEmpty
  | c :: rest => pat.isPrefixOf (c :: rest) || containsSub pat rest

/-- `_split_text_with_regex(text, separator, keep_separator=True)`: split on
the literal separator, re-attach the separator to the front of each piece
after the first, and drop empty strings. For the empty separator the text is
split into single characters (`list(text)`). -/
def splitKeep (sep : List Char) (text : List Char) : List (List Char) :=
  (match sep with
   | [] => text.map (fun c => [c])
   | s0 :: sr =>
     match splitGoF s0 sr text.length text with
     | [] => []
     | p :: ps => p :: ps.map (fun q => (s0 :: sr) ++ q)).filter
    (fun s => !s.isEmpty)

/-- Python `str.strip()` (over the whitespace characters Lean's
`Char.isWhitespace` recognizes). -/
def trimL (l : List Char) : List Char :=
  ((l.dropWhile Char.isWhitespace).reverse.dropWhile Char.isWhitespace).reverse

/-- `_join_docs(docs, separator="")` followed by the conditional append of the
caller: the pieces are concatenated (the merge separator is empty because
`keep_separator=True`), stripped, and dropped entirely when the result is
empty (`_join_docs` returns `None` there, and the caller appends nothing). -/
def joinDocs (current : List (List Char)) : List (List Char) :=
  if (trimL current.flatten).isEmpty then [] else [trimL current.flatten]

/-- The popping while-loop of `_merge_splits`:
`while total > chunk_overlap or (total + len + 0 > chunk_size and total > 0)`,
dropping pieces from the front of `current_doc`. `total` is maintained by the
caller as the sum of the lengths in `current`; on an empty `current` the
condition is necessarily false, so the extra base case is unreachable. -/
def popLoop (chunkSize overlap l : Nat) : List (List Char) → Nat → List (List Char) × Nat
  | [], total => ([], total)
  | c :: rest, total =>
    if total > overlap ∨ (total + l > chunkSize ∧ total > 0) then
      popLoop chunkSize overlap l rest (total - c.length)
    else
      (c :: rest, total)

/-- The main loop of `_merge_splits` (merge separator empty, separator
length 0): accumulate pieces into `current` while the running `total` stays
within `chunk_size`; when the next piece would overflow, flush the joined
`current` as a chunk and pop pieces from its front down to the overlap
budget before continuing. -/
def mergeGo (chunkSize overlap : Nat) (docs current : List (List Char)) (total : Nat) :
    List (List Char) → List (List Char)
  | [] => docs ++ joinDocs current
  | d :: ds =>
    if total + d.length > chunkSize then
      mergeGo chunkSize overlap
        (docs ++ if current.isEmpty then [] else joinDocs current)
        ((popLoop chunkSize overlap d.length current total).1 ++ [d])
        ((popLoop chunkSize overlap d.length current total).2 + d.length)
        ds
    else
      mergeGo chunkSize overlap docs (current ++ [d]) (total + d.length) ds

/-- `_merge_splits(splits, separator="")`. -/
def mergeSplits (chunkSize overlap : Nat) (splits : List (List Char)) : List (List Char) :=
  mergeGo chunkSize overlap [] [] 0 splits

/-- The separator-selection loop at the top of `_split_text`: walk the
separator list; an empty separator is selected with no remaining separators;
a separator occurring in the text is selected together with the remaining
list; if the loop falls through, the last separator is kept with no
remaining separators. (Python indexes `separators[-1]`, so the empty list is
unreachable.) -/
def chooseSep (text : List Char) : List (List Char) → List Char × List (List Char)
  | [] => ([], [])
  | s :: rest =>
    if s.isEmpty then ([], [])
    else if containsSub s text then (s, rest)
    else
      match rest with
      | [] => (s, [])
      | _ :: _ => chooseSep text rest

/-- The piece-processing loop of `_split_text`: small pieces are buffered in
`good` and merged; a piece at least `chunk_size` long flushes the buffer and
is either appended raw (when no separator remains) or re-split recursively
with the remaining separators (`recurse`). -/
def processSplits (chunkSize overlap : Nat) (recurse : List Char → List (List Char))
    (noNewSeps : Bool) : List (List Char) → List (List Char) → List (List Char)
  | [], good => if good.isEmpty then [] else mergeSplits chunkSize overlap good
  | s :: ss, good =>
    if s.length < chunkSize then
      processSplits chunkSize overlap recurse noNewSeps ss (good ++ [s])
    else
      (if good.isEmpty then [] else mergeSplits chunkSize overlap good)
        ++ (if noNewSeps then [s] else recurse s)
        ++ processSplits chunkSize overlap recurse noNewSeps ss []

/-- `RecursiveCharacterTextSplitter._split_text(text, separators)`. `fuel`
bounds the recursion depth; the remaining-separator list passed to a
recursive call is strictly shorter than the current one, so a fuel of
`separators.length` suffices and the zero-fuel case is unreachable, as is the
empty separator list (Python would raise on `separators[-1]`). -/
def splitTextFuel (chunkSize overlap : Nat) : Nat → List (List Char) → List Char → List (List Char)
  | 0, _, _ => []
  | _ + 1, [], _ => []
  | fuel + 1, s :: rest, text =>
    processSplits chunkSize overlap
      (fun t => splitTextFuel chunkSize overlap fuel (chooseSep text (s :: rest)).2 t)
      (chooseSep text (s :: rest)).2.isEmpty
      (splitKeep (chooseSep text (s :: rest)).1 text)
      []

/-- The separators configured in `setup_text_splitter`:
`["\n\n", "\n", ".", "!", "?", " ", ""]`. -/
def sepList : List (List Char) :=
  [['\n', '\n'], ['\n'], ['.'], ['!'], ['?'], [' '], []]

/-- The chunker of `setup_text_splitter`: `split_text` with chunk_size 2000,
chunk_overlap 150 and the configured separators (`split_documents` wraps each
returned chunk in a `Document` unchanged). -/
def splitText (text : List Char) : List (List Char) :=
  splitTextFuel 2000 150 sepList.length sepList text

/-- `TextSplitter.__init__` configuration validation: langchain raises
`ValueError` when `chunk_overlap > chunk_size` and otherwise stores the two
values unchanged. -/
def textSplitterInit (chunkSize chunkOverlap : Nat) : Except String (Nat × Nat) :=
  if chunkOverlap > chunkSize then
    .error "Got a larger chunk overlap than chunk size, should be smaller."
  else
    .ok (chunkSize, chunkOverlap)

/-- Re-joining chunks the way claim C4 prescribes: keep the first chunk whole
and remove the first `overlap` characters of every later chunk before
concatenating. -/
def rejoinChunks (overlap : Nat) : List (List Char) → List Char
  | [] => []
  | c :: cs => c ++ (cs.map (fun x => x.drop overlap)).flatten

/-- Sum of the lengths of a list of pieces (the running `total` of
`_merge_splits`). -/
def sumLen (L : List (List Char)) : Nat :=
  (L.map List.length).sum

/-! ### The map_reduce summarization chain

`load_summarize_chain(chain_type="map_reduce", map_prompt, combine_prompt)`:
the map step applies the LLM to each document in document order; the reduce
step joins the partial results with `"\n\n"` (the stuff-documents separator)
into the combine prompt's single placeholder for one final call. (The
optional collapse step for over-long intermediate results also preserves
order and is omitted here.) -/

/-- The map phase: one LLM call per chunk, in chunk order. -/
def mapPhase (llm : String → String) (docs : List String) : List String :=
  docs.map llm

/-- The reduce-side join of the partial summaries, in order. -/
def combineJoin (parts : List String) : String :=
  String.intercalate "\n\n" parts

/-- `chain.invoke(splits)`: map each chunk, join the partial summaries in
order, make the single combine call. -/
def mapReduceInvoke (llm combineLlm : String → String) (docs : List String) : String :=
  combineLlm (combineJoin (mapPhase llm docs))

/-! ### The bold-line normalization of `convert_to_html`

`re.sub(r'(\*\*.*\*\*)\n', r'\1\n\n', summary_text)` embedded directly: scan
left to right; at a position starting with `**`, the greedy `.*` (which cannot
cross a newline) forces the match to end at the first following newline, which
must be immediately preceded by a closing `**` disjoint from the opening one;
the replacement re-emits the matched group with the newline doubled and the
scan resumes after the match. -/

/-- Attempt to match `(\*\*.*\*\*)\n` at the head of `l`. On success returns
the captured group (without its newline) and the remainder of the input after
the matched newline. -/
def tryMatchBold (l : List Char) : Option (List Char × List Char) :=
  if ['*', '*'].isPrefixOf l then
    match (l.drop 2).dropWhile (fun c => c != '\n') with
    | '\n' :: tail =>
      if ['*', '*'].isSuffixOf ((l.drop 2).takeWhile (fun c => c != '\n')) then
        some ('*' :: '*' :: (l.drop 2).takeWhile (fun c => c != '\n'), tail)
      else
        none
    | _ => none
  else
    none

/-- The `re.sub` scan. `fuel` bounds the recursion depth; it is initialized to
the input length, which suffices because every step consumes at least one
character. -/
def subBoldF : Nat → List Char → List Char
  | _, [] => []
  | 0, _ :: _ => []
  | fuel + 1, c :: rest =>
    match tryMatchBold (c :: rest) with
    | some (g1, tail) => g1 ++ '\n' :: '\n' :: subBoldF fuel tail
    | none => c :: subBoldF fuel rest

/-- `re.sub(r'(\*\*.*\*\*)\n', r'\1\n\n', ·)` over `List Char`. -/
def subBold (l : List Char) : List Char :=
  subBoldF l.length l

/-- A (newline-free) line after which the substitution inserts a blank line:
the line ends in `**` and contains a disjoint earlier `**`, i.e. it has the
shape `A ++ "**" ++ B ++ "**"`. -/
def endsBoldB (line : List Char) : Bool :=
  ['*', '*'].isSuffixOf line && containsSub ['*', '*'] (line.take (line.length - 2))

/-! ### `summarize`, `run`, `convert_to_html`, `delete_summary_text`, `__main__`

The file system is reduced to the three files the script touches; file
contents are `Option String` (`none` = the file does not exist). The chain
invocation and the markdown renderer (`markdown.markdown` composed with the
hardcoded style template) are parameters. -/

/-- The three files `<text_file>.txt`, `<text_file>_summary.txt`,
`<text_file>_summary.html`. -/
structure FS where
  transcriptTxt : Option String
  summaryTxt : Option String
  summaryHtml : Option String
deriving DecidableEq

/-- `LectureSummarizer.summarize`: return `summary['output_text']` on success;
on any exception, catch it and return the string
`f"Error generating summary: {str(e)}"`. -/
def summarizeResult (chainResult : Except PyErr String) : String :=
  match chainResult with
  | .ok s => s
  | .error e => "Error generating summary: " ++ pyErrMsg e

/-- `LectureSummarizer.convert_to_html`: read `<name>_summary.txt` (a missing
file raises, is caught, and nothing is written), apply the bold-line
normalization, render (`render` stands for `markdown.markdown` plus the style
template) and write `<name>_summary.html`. -/
def convertToHtml (render : String → String) (fs : FS) : FS :=
  match fs.summaryTxt with
  | none => fs
  | some s => { fs with summaryHtml := some (render (String.mk (subBold s.toList))) }

/-- `LectureSummarizer.delete_summary_text`: `os.remove` the summary text
file; a missing file (`FileNotFoundError`) is caught and reported with the
skip message instead of propagating. The returned string is the progress
message printed. -/
def deleteSummaryText (fs : FS) : FS × String :=
  match fs.summaryTxt with
  | some _ => ({ fs with summaryTxt := none }, "Deleted summary text file")
  | none => (fs, "Summary text file not found, skipping deletion")

/-- `LectureSummarizer.run`: read the transcript (a missing file aborts the
run via the caught `FileNotFoundError`, writing nothing), summarize
(`chainResult` is the outcome of `chain.invoke`, and `summarize` turns a
failure into an error string), write the result to `<name>_summary.txt`, then
convert to HTML. -/
def runFS (render : String → String) (chainResult : Except PyErr String) (fs : FS) : FS :=
  match fs.transcriptTxt with
  | none => fs
  | some _ => convertToHtml render { fs with summaryTxt := some (summarizeResult chainResult) }

/-- The `__main__` sequence: `run()`, a second `convert_to_html()`, then
`delete_summary_text()`. -/
def mainScript (render : String → String) (chainResult : Except PyErr String) (fs : FS) : FS :=
  (deleteSummaryText (convertToHtml render (runFS render chainResult fs))).1

/-! ### The real-time transcription consumer loop

`RealtimeTranscriber.process_audio`, one cycle: iterate
`int(RATE / CHUNK * RECORD_SECONDS)` times; each iteration stops if the
recording flag was cleared, and otherwise appends the frame at the head of the
queue only if the queue is non-empty at that instant (`queue.empty()` check —
no blocking). `avail i` is the frame returned by `queue.get()` at poll `i`
(`none` = queue momentarily empty), `recording i` the flag at poll `i`. One
recognition call is made on the concatenation iff anything was collected.
Audio samples are abstracted to `Int` (their values are never inspected). -/

/-- `int(self.RATE / self.CHUNK * self.RECORD_SECONDS)` with RATE=16000,
CHUNK=4096, RECORD_SECONDS=3. The float expression `16000/4096*3 = 11.71875`
is exact in binary floating point, so its truncation equals the natural-number
division below. -/
def windowIters : Nat :=
  16000 * 3 / 4096

/-- The frame-collection loop of one cycle, polling from iteration `i` with
`remaining` iterations left. -/
def collectGo (avail : Nat → Option (List Int)) (recording : Nat → Bool) (i : Nat) :
    Nat → List (List Int)
  | 0 => []
  | remaining + 1 =>
    if recording i then
      match avail i with
      | some f => f :: collectGo avail recording (i + 1) remaining
      | none => collectGo avail recording (i + 1) remaining
    else
      []

/-- All frames collected in one cycle of `process_audio`. -/
def collectWindow (avail : Nat → Option (List Int)) (recording : Nat → Bool) : List (List Int) :=
  collectGo avail recording 0 windowIters

/-- One full cycle: collect, then transcribe the concatenation iff any frame
was collected (`if audio_data:`). -/
def processCycle (transcribe : List Int → String) (avail : Nat → Option (List Int))
    (recording : Nat → Bool) : Option String :=
  if (collectWindow avail recording).isEmpty then
    none
  else
    some (transcribe (collectWindow avail recording).flatten)

/-! ## Lemmas and claim theorems -/

theorem retryGoCount_le (call : Nat → Except PyErr α) :
    ∀ fuel n, retryGoCount call n fuel ≤ n + fuel := by
  intro fuel
  induction fuel with
  | zero => intro n; simp [retryGoCount]
  | succ f ih =>
    intro n
    simp only [retryGoCount]
    split
    · omega
    · have := ih (n + 1); omega

theorem retryGo_allfail (call : Nat → Except PyErr α) (e : Nat → PyErr) :
    ∀ fuel n, (∀ k, n ≤ k → k ≤ n + fuel → call k = .error (e k)) →
    retryGo call n fuel = .error (.retryError (e (n + fuel))) := by
  intro fuel
  induction fuel with
  | zero =>
    intro n h
    simp only [retryGo]
    rw [h n (Nat.le_refl n) (by omega), show n + 0 = n by omega]
  | succ f ih =>
    intro n h
    simp only [retryGo]
    rw [h n (Nat.le_refl n) (by omega), show n + (f + 1) = n + 1 + f by omega]
    exact ih (n + 1) (fun k hk1 hk2 => h k (by omega) (by omega))

/-- Claim C2 counterexample: when every attempt fails with the same
exception, the value raised to the caller is tenacity's `RetryError` wrapping
that exception — not the last failure itself (the decorator does not set
`reraise=True`), so the failure is replaced by a wrapper. -/
theorem retry_raises_wrapper_cex :
    retryCall (fun _ => (.error (.exc "boom") : Except PyErr String))
        = .error (.retryError (.exc "boom")) ∧
    retryCall (fun _ => (.error (.exc "boom") : Except PyErr String))
        ≠ .error (.exc "boom") := by
  refine ⟨rfl, fun h => ?_⟩
  have h2 := Except.error.inj h
  exact PyErr.noConfusion h2

/-- Claim C2 (amended): the retrying wrapper invokes the endpoint at most 10
times; if all 10 attempts fail, it raises tenacity's `RetryError` carrying the
last failure (the failure is surfaced inside the wrapper, not swallowed, but
it is not re-raised as itself because `reraise` is left unset). -/
theorem retry_bounded_wraps_last (call : Nat → Except PyErr String) (e : Nat → PyErr)
    (hfail : ∀ k, 1 ≤ k → k ≤ 10 → call k = .error (e k)) :
    (∀ g : Nat → Except PyErr String, retryAttempts g ≤ 10) ∧
    retryCall call = .error (.retryError (e 10)) := by
  constructor
  · intro g
    have := retryGoCount_le g 9 1
    simpa [retryAttempts] using this
  · have := retryGo_allfail call e 9 1 (fun k hk1 hk2 => hfail k hk1 (by omega))
    simpa [retryCall] using this

theorem retry_bounded_wraps_last_witness :
    (∀ k, 1 ≤ k → k ≤ 10 →
      (fun _ => (.error (.exc "boom") : Except PyErr String)) k
        = .error ((fun _ => PyErr.exc "boom") k)) ∧
    ((∀ g : Nat → Except PyErr String, retryAttempts g ≤ 10) ∧
      retryCall (fun _ => (.error (.exc "boom") : Except PyErr String))
        = .error (.retryError ((fun _ => PyErr.exc "boom") 10))) :=
  ⟨fun _ _ _ => rfl, retry_bounded_wraps_last _ _ (fun _ _ _ => rfl)⟩

/-- Claim C5 (confirmed): the configured backoff wait
(`wait_exponential(multiplier=1, min=4, max=10)`) is monotonically
non-decreasing in the attempt number, bounded below by the floor 4 and above
by the ceiling 10. -/
theorem backoff_monotone_clamped (n : Nat) :
    backoffWait n ≤ backoffWait (n + 1) ∧ 4 ≤ backoffWait n ∧ backoffWait n ≤ 10 := by
  refine ⟨?_, ?_, ?_⟩
  · unfold backoffWait waitExponential
    have h2 : 2 ^ n ≤ 2 ^ (n + 1) := Nat.pow_le_pow_right (by norm_num) (Nat.le_succ n)
    exact max_le_max (Nat.le_refl _)
      (min_le_min (by simpa using h2) (Nat.le_refl 10))
  · unfold backoffWait waitExponential
    calc (4 : Nat) = Nat.max 0 4 := by decide
    _ ≤ _ := Nat.le_max_left _ _
  · unfold backoffWait waitExponential
    exact Nat.max_le.mpr ⟨by decide, Nat.min_le_right _ _⟩

/-- Claim C7 counterexample: an overlap equal to the chunk size
(2000 ≥ 2000, so an illegal configuration per the claim) is accepted by the
splitter constructor unchanged; langchain only rejects a strictly larger
overlap. -/
theorem overlap_eq_size_accepted_cex :
    textSplitterInit 2000 2000 = .ok (2000, 2000) := rfl

/-- Claim C7 (amended): constructing the splitter fails exactly when the
overlap is strictly greater than the chunk size; any configuration with
`overlap ≤ maxSize` (including equality) is accepted and stored unchanged —
never silently corrected. -/
theorem overlap_gt_size_rejected (chunkSize chunkOverlap : Nat) :
    textSplitterInit chunkSize chunkOverlap = .ok (chunkSize, chunkOverlap)
      ↔ chunkOverlap ≤ chunkSize := by
  unfold textSplitterInit
  by_cases h : chunkOverlap > chunkSize
  · rw [if_pos h]
    exact ⟨fun hh => Except.noConfusion hh, fun hh => absurd hh (by omega)⟩
  · rw [if_neg h]
    exact ⟨fun _ => by omega, fun _ => rfl⟩

/-- Claim C1 counterexample: with the transcript present and the chain call
failing irrecoverably (e.g. after retries are exhausted), `run` still writes
the summary note file — its content is the error string returned by
`summarize`'s exception handler, so the error is recorded as output rather
than surfaced. -/
theorem run_error_written_cex :
    (runFS (fun s => s) (.error (.exc "quota")) ⟨some "t", none, none⟩).summaryTxt
        = some "Error generating summary: quota" ∧
    (runFS (fun s => s) (.error (.exc "quota")) ⟨some "t", none, none⟩).summaryTxt ≠ none := by
  refine ⟨rfl, fun h => ?_⟩
  exact Option.noConfusion h

/-- Claim C1 (amended): when the chain invocation fails, the summarization run
does not abort: `summarize` catches the exception and returns the string
`"Error generating summary: <e>"`, which `run` writes to `<name>_summary.txt`
and then renders into `<name>_summary.html`; the error is only logged, never
re-raised. -/
theorem run_writes_error_note (render : String → String) (fs : FS) (t : String) (e : PyErr)
    (h : fs.transcriptTxt = some t) :
    (runFS render (.error e) fs).summaryTxt
        = some ("Error generating summary: " ++ pyErrMsg e) ∧
    (runFS render (.error e) fs).summaryHtml
        = some (render (String.mk (subBold ("Error generating summary: " ++ pyErrMsg e).toList))) := by
  cases fs with
  | mk tr st sh =>
    simp only [FS.transcriptTxt] at h
    subst h
    simp [runFS, convertToHtml, summarizeResult]

theorem run_writes_error_note_witness :
    (FS.mk (some "t") none none).transcriptTxt = some "t" ∧
    ((runFS (fun s => s) (.error (.exc "boom")) ⟨some "t", none, none⟩).summaryTxt
        = some ("Error generating summary: " ++ pyErrMsg (.exc "boom")) ∧
     (runFS (fun s => s) (.error (.exc "boom")) ⟨some "t", none, none⟩).summaryHtml
        = some ((fun s => s)
            (String.mk (subBold ("Error generating summary: " ++ pyErrMsg (.exc "boom")).toList)))) :=
  ⟨rfl, run_writes_error_note _ _ "t" _ rfl⟩

theorem deleteSummaryText_fst (g : FS) :
    (deleteSummaryText g).1 = { g with summaryTxt := none } := by
  cases g with
  | mk a b c => cases b <;> rfl

/-- Claim C10 (confirmed): after the `__main__` sequence finishes, the
intermediate `<name>_summary.txt` no longer exists; the deletion step changes
neither the HTML file nor the transcript, and a missing summary text file is
tolerated with the skip message instead of an exception. -/
theorem summary_txt_deleted_html_untouched (render : String → String)
    (chainResult : Except PyErr String) (fs : FS) :
    (mainScript render chainResult fs).summaryTxt = none ∧
    (mainScript render chainResult fs).summaryHtml
      = (convertToHtml render (runFS render chainResult fs)).summaryHtml ∧
    (mainScript render chainResult fs).transcriptTxt
      = (convertToHtml render (runFS render chainResult fs)).transcriptTxt ∧
    deleteSummaryText ⟨fs.transcriptTxt, none, fs.summaryHtml⟩
      = (⟨fs.transcriptTxt, none, fs.summaryHtml⟩,
         "Summary text file not found, skipping deletion") := by
  refine ⟨?_, ?_, ?_, rfl⟩ <;> simp [mainScript, deleteSummaryText_fst]

/-- Claim C6 (confirmed): the map_reduce chain produces exactly one partial
summary per chunk, at the same position as its chunk, and the combine call
receives the partial summaries joined in input-chunk order. -/
theorem mapreduce_preserves_order (llm combineLlm : String → String) (docs : List String)
    (i : Nat) (h : i < docs.length) :
    (mapPhase llm docs).length = docs.length ∧
    (mapPhase llm docs).getD i "" = llm (docs.getD i "") ∧
    mapReduceInvoke llm combineLlm docs = combineLlm (combineJoin (mapPhase llm docs)) := by
  refine ⟨by simp [mapPhase], ?_, rfl⟩
  have h' : i < (mapPhase llm docs).length := by simpa [mapPhase] using h
  rw [List.getD_eq_getElem _ _ h', List.getD_eq_getElem _ _ h]
  simp [mapPhase]

theorem mapreduce_preserves_order_witness :
    1 < (["alpha", "beta"] : List String).length ∧
    ((mapPhase (fun s => s ++ "!") ["alpha", "beta"]).length
        = (["alpha", "beta"] : List String).length ∧
     (mapPhase (fun s => s ++ "!") ["alpha", "beta"]).getD 1 ""
        = (fun s => s ++ "!") ((["alpha", "beta"] : List String).getD 1 "") ∧
     mapReduceInvoke (fun s => s ++ "!") (fun s => s) ["alpha", "beta"]
        = (fun s => s) (combineJoin (mapPhase (fun s => s ++ "!") ["alpha", "beta"]))) :=
  ⟨by decide, mapreduce_preserves_order _ _ _ 1 (by decide)⟩

/-- Claim C8 (code bug): the consumer does not block for a full window. A
cycle in which the queue holds one 4096-sample frame at the first poll and is
momentarily empty at the other polls still issues a recognition call — on
4096 samples, far less than the 48000 samples of 3 seconds at 16 kHz; and
even a completely full window is only `windowIters * 4096 = 45056` samples,
short of 3 seconds. -/
theorem partial_window_transcribed :
    (processCycle (fun _ => "text")
        (fun i => if i = 0 then some (List.replicate 4096 0) else none)
        (fun _ => true)).isSome = true ∧
    (collectWindow (fun i => if i = 0 then some (List.replicate 4096 0) else none)
        (fun _ => true)).flatten.length = 4096 ∧
    4096 < 16000 * 3 ∧
    windowIters * 4096 = 45056 ∧ 45056 < 16000 * 3 := by
  have hc : collectWindow (fun i => if i = 0 then some (List.replicate 4096 (0 : Int)) else none)
      (fun _ => true) = [List.replicate 4096 (0 : Int)] := rfl
  refine ⟨?_, ?_, by norm_num, by decide, by norm_num⟩
  · unfold processCycle
    rw [hc]
    rfl
  · rw [hc]
    simp only [List.flatten_cons, List.flatten_nil, List.append_nil, List.length_replicate]

theorem scanLine (t : List Char) : ∀ line : List Char, '\n' ∉ line →
    (line ++ '\n' :: t).takeWhile (fun c => c != '\n') = line ∧
    (line ++ '\n' :: t).dropWhile (fun c => c != '\n') = '\n' :: t := by
  intro line
  induction line with
  | nil =>
    intro _
    refine ⟨?_, ?_⟩ <;> simp [List.takeWhile_cons, List.dropWhile_cons]
  | cons c cs ih =>
    intro h
    have hcn : c ≠ '\n' := fun hh => h (by simp [hh])
    have hmem : '\n' ∉ cs := fun hh => h (List.mem_cons_of_mem _ hh)
    have hc : (c != '\n') = true := by simpa using hcn
    obtain ⟨h1, h2⟩ := ih hmem
    constructor
    · simpa [List.takeWhile_cons, hc] using h1
    · simpa [List.dropWhile_cons, hc] using h2

theorem tryMatchBold_none_of (l : List Char) (hp : ['*', '*'].isPrefixOf l = false) :
    tryMatchBold l = none := by
  unfold tryMatchBold
  rw [hp]
  simp

theorem tryMatchBold_eq_of (l lineRest tail : List Char)
    (hp : ['*', '*'].isPrefixOf l = true)
    (ht : (l.drop 2).takeWhile (fun c => c != '\n') = lineRest)
    (hd : (l.drop 2).dropWhile (fun c => c != '\n') = '\n' :: tail) :
    tryMatchBold l =
      (if ['*', '*'].isSuffixOf lineRest then some ('*' :: '*' :: lineRest, tail) else none) := by
  unfold tryMatchBold
  rw [hp, ht, hd]
  simp

theorem tryMatchBold_line : ∀ (line t' : List Char), '\n' ∉ line →
    tryMatchBold (line ++ '\n' :: t') =
      (if (['*', '*'].isPrefixOf line && ['*', '*'].isSuffixOf (line.drop 2)) = true
       then some (line, t') else none) := by
  intro line t' h
  match line with
  | [] =>
    rw [tryMatchBold_none_of _ (by simp [List.isPrefixOf])]
    simp [List.isPrefixOf]
  | [c1] =>
    have hb : ('*' == '\n') = false := by decide
    rw [tryMatchBold_none_of _ (by simp [List.isPrefixOf, hb])]
    simp [List.isPrefixOf]
  | c1 :: c2 :: r =>
    have hr : '\n' ∉ r := fun hh => h (by simp [hh])
    by_cases hc1 : c1 = '*'
    · by_cases hc2 : c2 = '*'
      · subst hc1; subst hc2
        obtain ⟨ht, hd⟩ := scanLine t' r hr
        rw [show ('*' :: '*' :: r) ++ '\n' :: t' = '*' :: '*' :: (r ++ '\n' :: t') from rfl]
        rw [tryMatchBold_eq_of ('*' :: '*' :: (r ++ '\n' :: t')) r t'
          (by simp [List.isPrefixOf]) ht hd]
        have hq : ['*', '*'].isPrefixOf ('*' :: '*' :: r) = true := by
          simp [List.isPrefixOf]
        rw [show ('*' :: '*' :: r).drop 2 = r from rfl, hq]
        by_cases hs : ['*', '*'].isSuffixOf r = true
        · simp [hs]
        · rw [Bool.not_eq_true] at hs
          simp [hs]
      · have h2 : ('*' == c2) = false := beq_eq_false_iff_ne.mpr (fun hh => hc2 hh.symm)
        rw [tryMatchBold_none_of _ (by simp [List.isPrefixOf, h2])]
        simp [List.isPrefixOf, h2]
    · have h1 : ('*' == c1) = false := beq_eq_false_iff_ne.mpr (fun hh => hc1 hh.symm)
      rw [tryMatchBold_none_of _ (by simp [List.isPrefixOf, h1])]
      simp [List.isPrefixOf, h1]

theorem containsSub_iff (pat l : List Char) :
    containsSub pat l = true ↔ ∃ pre post, l = pre ++ pat ++ post := by
  induction l with
  | nil =>
    simp only [containsSub, List.isEmpty_iff]
    constructor
    · intro hp
      exact ⟨[], [], by simp [hp]⟩
    · rintro ⟨pre, post, hh⟩
      have := hh.symm
      simp only [List.append_eq_nil] at this
      exact this.1.2
  | cons c rest ih =>
    simp only [containsSub, Bool.or_eq_true]
    constructor
    · rintro (hp | hc)
      · rw [List.isPrefixOf_iff_prefix] at hp
        obtain ⟨t, ht⟩ := hp
        exact ⟨[], t, by simp [← ht]⟩
      · obtain ⟨pre, post, hh⟩ := ih.mp hc
        exact ⟨c :: pre, post, by simp [hh]⟩
    · rintro ⟨pre, post, hh⟩
      cases pre with
      | nil =>
        left
        rw [List.isPrefixOf_iff_prefix]
        exact ⟨post, by simpa using hh.symm⟩
      | cons p ps =>
        right
        apply ih.mpr
        simp only [List.cons_append, List.cons.injEq] at hh
        exact ⟨ps, post, hh.2⟩

theorem endsBoldB_iff (line : List Char) :
    endsBoldB line = true ↔ ∃ A B, line = A ++ ['*', '*'] ++ B ++ ['*', '*'] := by
  unfold endsBoldB
  rw [Bool.and_eq_true, List.isSuffixOf_iff_suffix, containsSub_iff]
  constructor
  · rintro ⟨⟨C, hC⟩, pre, post, hip⟩
    have h1 : (C ++ ['*', '*']).length - 2 = C.length := by simp
    have htake : line.take (line.length - 2) = C := by
      rw [← hC, h1, List.take_left]
    rw [htake] at hip
    refine ⟨pre, post, ?_⟩
    rw [← hC, hip]
  · rintro ⟨A, B, rfl⟩
    constructor
    · exact ⟨A ++ ['*', '*'] ++ B, by simp [List.append_assoc]⟩
    · have h1 : (A ++ ['*', '*'] ++ B ++ ['*', '*']).length - 2 = (A ++ ['*', '*'] ++ B).length := by
        simp
        omega
      rw [h1, List.take_left]
      exact ⟨A, B, rfl⟩

theorem endsBold_step (c : Char) (cs : List Char)
    (hnm : (['*', '*'].isPrefixOf (c :: cs) && ['*', '*'].isSuffixOf ((c :: cs).drop 2)) = false) :
    endsBoldB (c :: cs) = endsBoldB cs := by
  rw [Bool.eq_iff_iff, endsBoldB_iff, endsBoldB_iff]
  constructor
  · rintro ⟨A, B, hAB⟩
    cases A with
    | nil =>
      exfalso
      have hform : (c :: cs) = ['*', '*'] ++ (B ++ ['*', '*']) := by
        simpa [List.append_assoc] using hAB
      have hp : ['*', '*'].isPrefixOf (c :: cs) = true := by
        rw [List.isPrefixOf_iff_prefix]
        exact ⟨B ++ ['*', '*'], hform.symm⟩
      have hs : ['*', '*'].isSuffixOf ((c :: cs).drop 2) = true := by
        rw [List.isSuffixOf_iff_suffix]
        refine ⟨B, ?_⟩
        rw [hform]
        simpa using (List.drop_left ['*', '*'] (B ++ ['*', '*'])).symm
      rw [hp, hs] at hnm
      exact Bool.noConfusion hnm
    | cons a A' =>
      simp only [List.cons_append, List.cons.injEq] at hAB
      exact ⟨A', B, hAB.2⟩
  · rintro ⟨A, B, hAB⟩
    exact ⟨c :: A, B, by simp [hAB]⟩

theorem subBoldF_line : ∀ (line : List Char) (fuel : Nat), line.length + 1 ≤ fuel → '\n' ∉ line →
    subBoldF fuel (line ++ ['\n']) = line ++ (if endsBoldB line then ['\n', '\n'] else ['\n']) := by
  intro line
  induction line with
  | nil =>
    intro fuel hf _
    match fuel, hf with
    | f + 1, _ =>
      have hnone : tryMatchBold ['\n'] = none := by
        simp [tryMatchBold, List.isPrefixOf]
      have hend : endsBoldB ([] : List Char) = false := by decide
      simp [subBoldF, hnone, hend]
  | cons c cs ih =>
    intro fuel hf h
    match fuel, hf with
    | f + 1, hf =>
      have hcs : '\n' ∉ cs := fun hh => h (List.mem_cons_of_mem _ hh)
      have hchar := tryMatchBold_line (c :: cs) [] h
      simp only [List.cons_append] at hchar ⊢
      by_cases hcond :
          (['*', '*'].isPrefixOf (c :: cs) && ['*', '*'].isSuffixOf ((c :: cs).drop 2)) = true
      · rw [if_pos hcond] at hchar
        have hend : endsBoldB (c :: cs) = true := by
          rw [endsBoldB_iff]
          rw [Bool.and_eq_true, List.isPrefixOf_iff_prefix, List.isSuffixOf_iff_suffix] at hcond
          obtain ⟨⟨t, ht⟩, ⟨C, hC⟩⟩ := hcond
          have hdrop : (c :: cs).drop 2 = t := by
            rw [← ht]
            simpa using List.drop_left ['*', '*'] t
          rw [hdrop] at hC
          refine ⟨[], C, ?_⟩
          rw [← ht, ← hC]
          simp [List.append_assoc]
        simp only [subBoldF, hchar, hend, if_pos]
        simp [subBoldF]
      · rw [if_neg hcond] at hchar
        rw [Bool.not_eq_true] at hcond
        have hrec := ih f (by simpa using Nat.lt_succ_iff.mp (by simpa using hf)) hcs
        simp only [subBoldF, hchar]
        rw [hrec, endsBold_step c cs hcond]

/-- Claim C9 counterexample: the line `x **b**` is not entirely
bold-emphasized, yet the normalization inserts a blank line after it — the
regex `(\*\*.*\*\*)\n` is not anchored to the line start, so any line that
merely ends with a bold span is also rewritten. -/
theorem bold_line_cex :
    (¬ ∃ B, (['x', ' ', '*', '*', 'b', '*', '*'] : List Char)
        = ['*', '*'] ++ B ++ ['*', '*']) ∧
    subBold (['x', ' ', '*', '*', 'b', '*', '*'] ++ ['\n'])
      = ['x', ' ', '*', '*', 'b', '*', '*'] ++ ['\n', '\n'] := by
  constructor
  · rintro ⟨B, hB⟩
    simp only [List.cons_append, List.append_assoc, List.cons.injEq] at hB
    exact absurd hB.1 (by decide)
  · decide

/-- Claim C9 (amended): for every newline-terminated line, the normalization
inserts a blank line after the line exactly when the line ends with `**` and
contains a disjoint earlier `**` (shape `A ++ "**" ++ B ++ "**"`), i.e. when a
`**...**` span ends at the line end — not only when the whole line is bold;
all other lines are left unchanged. -/
theorem subBold_line_insertion (line : List Char) (h : '\n' ∉ line) :
    subBold (line ++ ['\n']) = line ++ (if endsBoldB line then ['\n', '\n'] else ['\n']) := by
  unfold subBold
  exact subBoldF_line line (line ++ ['\n']).length (by simp) h

theorem subBold_line_insertion_witness :
    ('\n' ∉ ['*', '*', 'T', '*', '*']) ∧
    subBold (['*', '*', 'T', '*', '*'] ++ ['\n'])
      = ['*', '*', 'T', '*', '*']
          ++ (if endsBoldB ['*', '*', 'T', '*', '*'] then ['\n', '\n'] else ['\n']) :=
  ⟨by decide, subBold_line_insertion _ (by decide)⟩

theorem splitGoF_ne_nil (s0 : Char) (sr : List Char) :
    ∀ fuel l, splitGoF s0 sr fuel l ≠ [] := by
  intro fuel
  induction fuel with
  | zero => intro l; cases l <;> simp [splitGoF]
  | succ f ih =>
    intro l
    cases l with
    | nil => simp [splitGoF]
    | cons c rest =>
      simp only [splitGoF]
      split
      · simp
      · split
        · simp
        · simp

theorem unsplit_cons_head (sep : List Char) (c : Char) (p : List Char) (ps : List (List Char)) :
    unsplit sep ((c :: p) :: ps) = c :: unsplit sep (p :: ps) := by
  cases ps with
  | nil => rfl
  | cons q r => simp [unsplit, List.cons_append]

theorem unsplit_splitGoF (s0 : Char) (sr : List Char) : ∀ fuel l, l.length ≤ fuel →
    unsplit (s0 :: sr) (splitGoF s0 sr fuel l) = l := by
  intro fuel
  induction fuel with
  | zero =>
    intro l hl
    have h0 : l = [] := List.length_eq_zero.mp (Nat.le_zero.mp hl)
    subst h0
    rfl
  | succ f ih =>
    intro l hl
    cases l with
    | nil => rfl
    | cons c rest =>
      have hrl : rest.length ≤ f := by simp at hl; omega
      simp only [splitGoF]
      by_cases hp : (s0 :: sr).isPrefixOf (c :: rest) = true
      · rw [if_pos hp]
        cases hps : splitGoF s0 sr f (rest.drop sr.length) with
        | nil => exact absurd hps (splitGoF_ne_nil s0 sr f _)
        | cons p ps =>
          have hrec : unsplit (s0 :: sr) (p :: ps) = rest.drop sr.length := by
            rw [← hps]
            exact ih _ (by simp [List.length_drop]; omega)
          rw [show unsplit (s0 :: sr) ([] :: p :: ps)
              = [] ++ (s0 :: sr) ++ unsplit (s0 :: sr) (p :: ps) from rfl]
          rw [hrec]
          rw [List.isPrefixOf_iff_prefix] at hp
          obtain ⟨t, ht⟩ := hp
          have hdt : rest.drop sr.length = t := by
            have h2 := congrArg (List.drop (s0 :: sr).length) ht
            rw [List.drop_left] at h2
            simpa using h2.symm
          rw [hdt, ← ht]
          simp
      · rw [if_neg hp]
        cases hps : splitGoF s0 sr f rest with
        | nil => exact absurd hps (splitGoF_ne_nil s0 sr f _)
        | cons p ps =>
          show unsplit (s0 :: sr) ((c :: p) :: ps) = c :: rest
          rw [unsplit_cons_head]
          have hr : unsplit (s0 :: sr) (p :: ps) = rest := by
            rw [← hps]
            exact ih rest hrl
          rw [hr]

theorem flatten_filter_ne (L : List (List Char)) :
    (L.filter (fun s => !s.isEmpty)).flatten = L.flatten := by
  induction L with
  | nil => rfl
  | cons x xs ih =>
    by_cases hx : x.isEmpty = true
    · have h0 : x = [] := List.isEmpty_iff.mp hx
      subst h0
      simp [List.filter_cons, ih]
    · have hx' : x.isEmpty = false := by simpa using hx
      simp [List.filter_cons, hx', ih]

theorem flatten_map_singleton (l : List Char) : (l.map (fun c => [c])).flatten = l := by
  induction l with
  | nil => rfl
  | cons c cs ih => simp [ih]

theorem flatten_cons_map (sep : List Char) : ∀ (p : List Char) (ps : List (List Char)),
    (p :: ps.map (fun q => sep ++ q)).flatten = unsplit sep (p :: ps) := by
  intro p ps
  induction ps generalizing p with
  | nil => simp [unsplit]
  | cons q r ih =>
    rw [show unsplit sep (p :: q :: r) = p ++ sep ++ unsplit sep (q :: r) from rfl]
    rw [← ih q]
    simp [List.flatten_cons, List.append_assoc]

theorem flatten_splitKeep (sep text : List Char) : (splitKeep sep text).flatten = text := by
  unfold splitKeep
  rw [flatten_filter_ne]
  cases sep with
  | nil => exact flatten_map_singleton text
  | cons s0 sr =>
    dsimp only
    cases hps : splitGoF s0 sr text.length text with
    | nil => exact absurd hps (splitGoF_ne_nil s0 sr _ _)
    | cons p ps =>
      show (p :: ps.map (fun q => (s0 :: sr) ++ q)).flatten = text
      rw [flatten_cons_map]
      rw [← hps]
      exact unsplit_splitGoF s0 sr text.length text (Nat.le_refl _)

theorem ne_nil_of_mem_splitKeep (sep text : List Char) (s : List Char)
    (hs : s ∈ splitKeep sep text) : s ≠ [] := by
  unfold splitKeep at hs
  have h2 := List.of_mem_filter hs
  simpa using h2

theorem sumLen_append (L1 L2 : List (List Char)) :
    sumLen (L1 ++ L2) = sumLen L1 + sumLen L2 := by
  simp [sumLen]

theorem sumLen_flatten (L : List (List Char)) : sumLen L = L.flatten.length :=
  (List.length_flatten L).symm

theorem le_sumLen_of_mem (x : List Char) (L : List (List Char)) (h : x ∈ L) :
    x.length ≤ sumLen L := by
  induction L with
  | nil => cases h
  | cons y ys ih =>
    rcases List.mem_cons.mp h with rfl | hmem
    · simp only [sumLen, List.map_cons, List.sum_cons]
      exact Nat.le_add_right _ _
    · have h2 := ih hmem
      simp only [sumLen, List.map_cons, List.sum_cons] at h2 ⊢
      omega

theorem mergeGo_small (cs ov : Nat) : ∀ (ds docs current : List (List Char)) (total : Nat),
    total = sumLen current → sumLen current + sumLen ds ≤ cs →
    mergeGo cs ov docs current total ds = docs ++ joinDocs (current ++ ds) := by
  intro ds
  induction ds with
  | nil =>
    intro docs current total ht hb
    simp [mergeGo]
  | cons d dtl ih =>
    intro docs current total ht hb
    have hsd : sumLen (d :: dtl) = d.length + sumLen dtl := by
      simp [sumLen]
    have hno : ¬ (total + d.length > cs) := by omega
    simp only [mergeGo]
    rw [if_neg hno]
    rw [ih docs (current ++ [d]) (total + d.length)
      (by rw [ht, sumLen_append]; simp [sumLen])
      (by rw [sumLen_append]; simp only [sumLen, List.map_cons, List.sum_cons, List.map_nil,
            List.sum_nil] at hb ⊢; omega)]
    rw [List.append_assoc]
    rfl

theorem mergeSplits_small (cs ov : Nat) (splits : List (List Char)) (h : sumLen splits ≤ cs) :
    mergeSplits cs ov splits = joinDocs splits := by
  unfold mergeSplits
  rw [mergeGo_small cs ov splits [] [] 0 (by simp [sumLen]) (by simpa [sumLen] using h)]
  simp

theorem processSplits_small (cs ov : Nat) (rc : List Char → List (List Char)) (noNew : Bool) :
    ∀ (splits good : List (List Char)), (∀ s ∈ splits, s.length < cs) →
    processSplits cs ov rc noNew splits good =
      (if (good ++ splits).isEmpty then [] else mergeSplits cs ov (good ++ splits)) := by
  intro splits
  induction splits with
  | nil =>
    intro good h
    simp [processSplits]
  | cons s ss ih =>
    intro good h
    have hs : s.length < cs := h s (by simp)
    simp only [processSplits]
    rw [if_pos hs]
    rw [ih (good ++ [s]) (fun x hx => h x (by simp [hx]))]
    rw [List.append_assoc]
    rfl

theorem eq_singleton_of_big (L : List (List Char)) (s : List Char)
    (hmem : s ∈ L) (hne : ∀ x ∈ L, x ≠ []) (hsum : sumLen L ≤ s.length) : L = [s] := by
  induction L with
  | nil => cases hmem
  | cons y ys ih =>
    rcases List.mem_cons.mp hmem with rfl | hmem2
    · have hys : sumLen ys = 0 := by
        have h4 : sumLen (s :: ys) = s.length + sumLen ys := by simp [sumLen]
        omega
      have hnil : ys = [] := by
        cases ys with
        | nil => rfl
        | cons z zs =>
          exfalso
          have hz : z.length = 0 := by
            simp only [sumLen, List.map_cons, List.sum_cons] at hys
            omega
          exact hne z (by simp) (List.length_eq_zero.mp hz)
      rw [hnil]
    · exfalso
      have h1 : s.length ≤ sumLen ys := le_sumLen_of_mem s ys hmem2
      have h2 : y ≠ [] := hne y (by simp)
      have h3 : 1 ≤ y.length := by
        cases y with
        | nil => exact absurd rfl h2
        | cons _ _ => simp
      have h4 : sumLen (y :: ys) = y.length + sumLen ys := by simp [sumLen]
      omega

theorem chooseSep_snd_le (text : List Char) : ∀ (rest : List (List Char)) (s : List Char),
    (chooseSep text (s :: rest)).2.length ≤ rest.length := by
  intro rest
  induction rest with
  | nil =>
    intro s
    simp only [chooseSep]
    split
    · simp
    · split
      · simp
      · simp
  | cons r rs ih =>
    intro s
    simp only [chooseSep]
    split
    · simp
    · split
      · simp
      · exact le_trans (ih r) (by simp)

theorem chooseSep_spec (text : List Char) : ∀ (seps : List (List Char)), [] ∈ seps →
    chooseSep text seps = ([], []) ∨
      ((chooseSep text seps).1 ≠ [] ∧ [] ∈ (chooseSep text seps).2) := by
  intro seps
  induction seps with
  | nil => intro h; cases h
  | cons s rest ih =>
    intro h
    by_cases he : s.isEmpty = true
    · left
      simp only [chooseSep]
      rw [if_pos he]
    · have hs : s ≠ [] := by simpa [List.isEmpty_iff] using he
      have hrest : [] ∈ rest := by
        rcases List.mem_cons.mp h with h1 | h1
        · exact absurd h1.symm hs
        · exact h1
      by_cases hc : containsSub s text = true
      · right
        simp only [chooseSep]
        rw [if_neg he, if_pos hc]
        exact ⟨hs, hrest⟩
      · cases hrne : rest with
        | nil =>
          rw [hrne] at hrest
          cases hrest
        | cons r rs =>
          subst hrne
          have h2 := ih hrest
          simp only [chooseSep]
          rw [if_neg he, if_neg hc]
          exact h2

theorem splitKeep_merge_result (cs ov : Nat) (sep text : List Char) (htext : text.length ≤ cs) :
    (if (splitKeep sep text).isEmpty then [] else mergeSplits cs ov (splitKeep sep text)) =
      (if (trimL text).isEmpty then [] else [trimL text]) := by
  by_cases hsplits : (splitKeep sep text).isEmpty = true
  · rw [if_pos hsplits]
    have h0 : splitKeep sep text = [] := List.isEmpty_iff.mp hsplits
    have h1 : text = [] := by
      rw [← flatten_splitKeep sep text, h0]
      rfl
    rw [h1]
    simp [trimL]
  · rw [if_neg hsplits]
    have hsum : sumLen (splitKeep sep text) ≤ cs := by
      rw [sumLen_flatten, flatten_splitKeep]
      exact htext
    rw [mergeSplits_small cs ov _ hsum]
    unfold joinDocs
    rw [flatten_splitKeep]

theorem splitTextFuel_single (cs ov : Nat) (hcs : 1 < cs) :
    ∀ (fuel : Nat) (seps : List (List Char)) (text : List Char),
      seps.length ≤ fuel → [] ∈ seps → text.length ≤ cs →
      splitTextFuel cs ov fuel seps text =
        (if (trimL text).isEmpty then [] else [trimL text]) := by
  intro fuel
  induction fuel with
  | zero =>
    intro seps text hf hmem _
    have h0 : seps = [] := List.length_eq_zero.mp (Nat.le_zero.mp hf)
    subst h0
    cases hmem
  | succ f ih =>
    intro seps text hf hmem htext
    cases seps with
    | nil => cases hmem
    | cons s rest =>
      simp only [splitTextFuel]
      rcases chooseSep_spec text (s :: rest) hmem with hA | ⟨hB1, hB2⟩
      · have h1 : (chooseSep text (s :: rest)).1 = [] := by rw [hA]
        rw [h1]
        have hall : ∀ x ∈ splitKeep [] text, x.length < cs := by
          intro x hx
          unfold splitKeep at hx
          have hx2 := List.mem_filter.mp hx
          obtain ⟨c, hc, rfl⟩ := List.mem_map.mp hx2.1
          simpa using hcs
        rw [processSplits_small cs ov _ _ _ [] hall]
        rw [List.nil_append]
        exact splitKeep_merge_result cs ov [] text htext
      · have hlen : (chooseSep text (s :: rest)).2.length ≤ f := by
          have h2 := chooseSep_snd_le text rest s
          simp at hf
          omega
        by_cases hbig : ∃ x ∈ splitKeep (chooseSep text (s :: rest)).1 text, cs ≤ x.length
        · obtain ⟨x, hxmem, hxlen⟩ := hbig
          have hsum : sumLen (splitKeep (chooseSep text (s :: rest)).1 text) ≤ cs := by
            rw [sumLen_flatten, flatten_splitKeep]
            exact htext
          have hone : splitKeep (chooseSep text (s :: rest)).1 text = [x] :=
            eq_singleton_of_big _ x hxmem
              (fun y hy => ne_nil_of_mem_splitKeep _ _ y hy)
              (le_trans hsum hxlen)
          have hxtext : x = text := by
            have h3 := flatten_splitKeep (chooseSep text (s :: rest)).1 text
            rw [hone] at h3
            simpa using h3
          rw [hxtext] at hone hxlen
          rw [hone]
          have hne2 : (chooseSep text (s :: rest)).2 ≠ [] := by
            intro hcc
            rw [hcc] at hB2
            cases hB2
          have hrec2 : splitTextFuel cs ov f (chooseSep text (s :: rest)).2 text
              = (if (trimL text).isEmpty then [] else [trimL text]) := ih _ _ hlen hB2 htext
          simp only [processSplits]
          rw [if_neg (by omega)]
          simp [hne2, hrec2, processSplits]
        · push_neg at hbig
          rw [processSplits_small cs ov _ _ _ [] hbig]
          rw [List.nil_append]
          exact splitKeep_merge_result cs ov _ text htext

/-- Claim C3 counterexample: the chunker returns zero chunks for the empty
transcript (the claim demands at least one chunk for every input), and for the
two-character transcript `"a "` it returns the single chunk `"a"`, which
differs from the input (stripped trailing whitespace). -/
theorem splitText_empty_cex :
    splitText [] = [] ∧ splitText ['a', ' '] = [['a']] := by
  constructor
  · rfl
  · decide

/-- Claim C3 (amended): a transcript of length at most 2000 yields exactly one
chunk, equal to the whitespace-stripped transcript, when that strip is
nonempty; transcripts that are empty or whitespace-only yield no chunks. -/
theorem splitText_short_single_trimmed (text : List Char) (h : text.length ≤ 2000) :
    splitText text = (if (trimL text).isEmpty then [] else [trimL text]) := by
  unfold splitText
  exact splitTextFuel_single 2000 150 (by norm_num) sepList.length sepList text
    (Nat.le_refl _) (by simp [sepList]) h

theorem splitText_short_single_trimmed_witness :
    (['h', 'i'] : List Char).length ≤ 2000 ∧
    splitText ['h', 'i'] = (if (trimL ['h', 'i']).isEmpty then [] else [trimL ['h', 'i']]) :=
  ⟨by decide, splitText_short_single_trimmed _ (by decide)⟩

theorem popLoop_suffix (cs ov l : Nat) : ∀ (current : List (List Char)) (total : Nat),
    (popLoop cs ov l current total).1 <:+ current := by
  intro current
  induction current with
  | nil => intro total; simp [popLoop]
  | cons c rest ih =>
    intro total
    simp only [popLoop]
    split
    · exact (ih _).trans (List.suffix_cons c rest)
    · exact List.suffix_refl _

theorem flatten_suffix (L1 L2 : List (List Char)) (h : L1 <:+ L2) :
    L1.flatten <:+ L2.flatten := by
  obtain ⟨pre, hpre⟩ := h
  exact ⟨pre.flatten, by rw [← hpre, List.flatten_append]⟩

theorem trimL_isInfix (l : List Char) : trimL l <:+: l := by
  have hm := List.takeWhile_append_dropWhile (p := Char.isWhitespace)
    (l := (l.dropWhile Char.isWhitespace).reverse)
  have hm2 : l.dropWhile Char.isWhitespace
      = ((l.dropWhile Char.isWhitespace).reverse.dropWhile Char.isWhitespace).reverse
        ++ ((l.dropWhile Char.isWhitespace).reverse.takeWhile Char.isWhitespace).reverse := by
    have h3 := congrArg List.reverse hm
    rw [List.reverse_append, List.reverse_reverse] at h3
    exact h3.symm
  refine ⟨l.takeWhile Char.isWhitespace,
    ((l.dropWhile Char.isWhitespace).reverse.takeWhile Char.isWhitespace).reverse, ?_⟩
  unfold trimL
  rw [List.append_assoc, ← hm2]
  exact List.takeWhile_append_dropWhile _ _

theorem mem_joinDocs (cur : List (List Char)) (x : List Char) (h : x ∈ joinDocs cur) :
    x = trimL cur.flatten := by
  unfold joinDocs at h
  split at h
  · cases h
  · simpa using h

theorem mergeGo_isInfix (cs ov : Nat) (T : List Char) :
    ∀ (ds docs current : List (List Char)) (total : Nat),
      (current.flatten ++ ds.flatten) <:+: T →
      (∀ x ∈ docs, x <:+: T) →
      ∀ x ∈ mergeGo cs ov docs current total ds, x <:+: T := by
  intro ds
  induction ds with
  | nil =>
    intro docs current total hinf hdocs x hx
    simp only [mergeGo] at hx
    rcases List.mem_append.mp hx with h1 | h2
    · exact hdocs x h1
    · have hx2 := mem_joinDocs current x h2
      subst hx2
      have h3 : current.flatten <:+: T := by simpa using hinf
      exact (trimL_isInfix _).trans h3
  | cons d dtl ih =>
    intro docs current total hinf hdocs x hx
    simp only [mergeGo] at hx
    split at hx
    · refine ih _ _ _ ?_ ?_ x hx
      · have hsuf := popLoop_suffix cs ov d.length current total
        obtain ⟨pre, hpre⟩ := flatten_suffix _ _ hsuf
        have hsfx : ((popLoop cs ov d.length current total).1 ++ [d]).flatten ++ dtl.flatten
            <:+ current.flatten ++ (d :: dtl).flatten := by
          refine ⟨pre, ?_⟩
          rw [← hpre]
          simp [List.flatten_append, List.append_assoc]
        exact hsfx.isInfix.trans hinf
      · intro y hy
        rcases List.mem_append.mp hy with h1 | h2
        · exact hdocs y h1
        · split at h2
          · cases h2
          · have hy2 := mem_joinDocs current y h2
            subst hy2
            have hcur : current.flatten <:+: T :=
              (List.prefix_append _ _).isInfix.trans hinf
            exact (trimL_isInfix _).trans hcur
    · refine ih _ _ _ ?_ hdocs x hx
      have : (current ++ [d]).flatten ++ dtl.flatten
          = current.flatten ++ (d :: dtl).flatten := by
        simp [List.flatten_append, List.append_assoc]
      rw [this]
      exact hinf

theorem processSplits_isInfix (cs ov : Nat) (T : List Char) (rc : List Char → List (List Char))
    (noNew : Bool) :
    ∀ (splits good : List (List Char)),
      (good.flatten ++ splits.flatten) <:+: T →
      (∀ s ∈ splits, s <:+: T) →
      (∀ s ∈ splits, ∀ y ∈ rc s, y <:+: T) →
      ∀ x ∈ processSplits cs ov rc noNew splits good, x <:+: T := by
  intro splits
  induction splits with
  | nil =>
    intro good hinf _ _ x hx
    simp only [processSplits] at hx
    split at hx
    · cases hx
    · unfold mergeSplits at hx
      exact mergeGo_isInfix cs ov T good [] [] 0 (by simpa using hinf)
        (fun y hy => absurd hy (List.not_mem_nil y)) x hx
  | cons s ss ih =>
    intro good hinf hmem hrec x hx
    simp only [processSplits] at hx
    split at hx
    · refine ih (good ++ [s]) ?_ (fun z hz => hmem z (by simp [hz]))
        (fun z hz => hrec z (by simp [hz])) x hx
      have : (good ++ [s]).flatten ++ ss.flatten = good.flatten ++ (s :: ss).flatten := by
        simp [List.flatten_append, List.append_assoc]
      rw [this]
      exact hinf
    · simp only [List.mem_append] at hx
      rcases hx with (hA | hB) | hC
      · split at hA
        · cases hA
        · unfold mergeSplits at hA
          have hg : good.flatten <:+: T := (List.prefix_append _ _).isInfix.trans hinf
          exact mergeGo_isInfix cs ov T good [] [] 0 (by simpa using hg)
            (fun y hy => absurd hy (List.not_mem_nil y)) x hA
      · split at hB
        · have hxs : x = s := by simpa using hB
          subst hxs
          exact hmem x (by simp)
        · exact hrec s (by simp) x hB
      · refine ih [] ?_ (fun z hz => hmem z (by simp [hz]))
          (fun z hz => hrec z (by simp [hz])) x hC
        have hsfx : ss.flatten <:+ good.flatten ++ (s :: ss).flatten :=
          ⟨good.flatten ++ s, by simp [List.append_assoc]⟩
        simpa using hsfx.isInfix.trans hinf

theorem splitTextFuel_isInfix (cs ov : Nat) :
    ∀ (fuel : Nat) (seps : List (List Char)) (text x : List Char),
      x ∈ splitTextFuel cs ov fuel seps text → x <:+: text := by
  intro fuel
  induction fuel with
  | zero =>
    intro seps text x hx
    simp only [splitTextFuel] at hx
    cases hx
  | succ f ih =>
    intro seps text x hx
    cases seps with
    | nil =>
      simp only [splitTextFuel] at hx
      cases hx
    | cons s rest =>
      simp only [splitTextFuel] at hx
      refine processSplits_isInfix cs ov text _ _ _ [] ?_ ?_ ?_ x hx
      · have h1 : (splitKeep (chooseSep text (s :: rest)).1 text).flatten = text :=
          flatten_splitKeep _ _
        simpa [h1] using List.infix_refl text
      · intro z hz
        have h1 : z <:+: (splitKeep (chooseSep text (s :: rest)).1 text).flatten :=
          List.infix_of_mem_flatten hz
        rwa [flatten_splitKeep] at h1
      · intro z hz y hy
        have hz2 : z <:+: text := by
          have h1 := List.infix_of_mem_flatten hz
          rwa [flatten_splitKeep] at h1
        exact (ih _ _ y hy).trans hz2

/-- Claim C4 counterexample: at the configured sizes (maxSize 2000,
overlap 150), the transcript `"a "` yields the single chunk `"a"`; re-joining
by removing the 150-character overlap from every chunk after the first (there
are none) gives `"a"`, which is not the original transcript — the chunker
strips whitespace, so exact reconstruction fails. -/
theorem rejoin_cex :
    rejoinChunks 150 (splitText ['a', ' ']) = ['a'] ∧
    rejoinChunks 150 (splitText ['a', ' ']) ≠ ['a', ' '] := by
  refine ⟨by decide, by decide⟩

/-- Claim C4 (amended): re-joining chunks by dropping a fixed 150-character
overlap does not reconstruct the transcript (chunks are whitespace-trimmed
and the amount of shared context varies per chunk); what does hold is that
every chunk the splitter produces is a contiguous substring (infix) of the
original transcript. -/
theorem splitText_chunk_isInfix (text x : List Char) (h : x ∈ splitText text) : x <:+: text := by
  unfold splitText at h
  exact splitTextFuel_isInfix 2000 150 sepList.length sepList text x h

theorem splitText_chunk_isInfix_witness :
    (['h', 'i'] : List Char) ∈ splitText ['h', 'i'] ∧
    (['h', 'i'] : List Char) <:+: ['h', 'i'] :=
  ⟨by decide, splitText_chunk_isInfix _ _ (by decide)⟩
